import Mathlib

/-!
Verification development for the blk_engine snapshot/restore engine
(src/engine.rs, src/main.rs, src/models.rs), shallowly embedded in Lean.

Paths are modelled as lists of segments rendered as absolute unix-style
character lists ('/' before each segment), matching what
Path::to_string_lossy yields on the absolute paths the engine works
with.  Filesystem state is modelled explicitly (lists of paths, or maps
from paths to contents) and each engine operation is translated into a
pure function on that state, following the source line by line on its
success paths (I/O failures that the source ignores with a discarded
Result are modelled as succeeding).
-/

namespace Blk

/-- Lowercasing of a character list, modelling str::to_lowercase on the
ASCII alphabet the Safety Filter compares against. -/
def lowerL (l : List Char) : List Char := l.map Char.toLower

/-- Does the second list occur at the head of the first? -/
def hasPrefixChars : List Char → List Char → Bool
  | _, [] => true
  | [], _ :: _ => false
  | a :: as, b :: bs => a == b && hasPrefixChars as bs

/-- Does the second list occur contiguously anywhere inside the first?
Models Rust str::contains. -/
def hasSubChars : List Char → List Char → Bool
  | [], pat => pat.isEmpty
  | c :: rest, pat => hasPrefixChars (c :: rest) pat || hasSubChars rest pat

/-- A filesystem path, as its list of segments; rendered with a leading
"/" like the absolute unix paths the engine manipulates. -/
structure FsPath where
  segs : List String
deriving DecidableEq, Repr

/-- Rust Path::to_string_lossy for an absolute unix path, as characters:
each segment is preceded by '/'. -/
def pathChars (p : FsPath) : List Char :=
  p.segs.foldl (fun acc seg => acc ++ '/' :: seg.data) []

/-- Rust path.file_name().unwrap_or_default(): the last segment, or "". -/
def fileName (p : FsPath) : String :=
  p.segs.getLast?.getD ""

/-- engine.rs should_ignore (lines 65-96).  The source lowercases the
rendered path and the basename, then returns true on a disjunction of
substring-containment and basename-equality tests, and finally compares
against the current executable (which may be unavailable, hence the
Option parameter). -/
def should_ignore (exe : Option FsPath) (p : FsPath) : Bool :=
  let s := lowerL (pathChars p)
  let name := lowerL (fileName p).data
  (hasSubChars s ".blk".data
    || name == "cargo.toml".data
    || name == "cargo.lock".data
    || name == "src".data
    || hasSubChars s "/src/".data
    || hasSubChars s "\\src\\".data
    || name == "target".data
    || hasSubChars s "/target/".data
    || hasSubChars s "\\target\\".data
    || hasSubChars s ".git".data
    || hasSubChars s ".vscode".data)
  || (match exe with
      | some e => p == e
      | none => false)

/-- The Safety Filter as claim C3 words it: segment-equality semantics.
True exactly when, case-insensitively, the path contains the segment
".blk", or its basename or any segment equals "src", "target", ".git"
or ".vscode", or its basename equals the build manifest or lock file,
or the path equals the running executable. -/
def is_protected_claim (exe : Option FsPath) (p : FsPath) : Bool :=
  let segsL := p.segs.map (fun seg => lowerL seg.data)
  let base := lowerL (fileName p).data
  segsL.contains ".blk".data
  || base == "src".data || base == "target".data
  || base == ".git".data || base == ".vscode".data
  || segsL.contains "src".data || segsL.contains "target".data
  || segsL.contains ".git".data || segsL.contains ".vscode".data
  || base == "cargo.toml".data || base == "cargo.lock".data
  || (match exe with
      | some e => p == e
      | none => false)

/-- The Safety Filter as the source actually decides it: substring
semantics for ".blk", ".git", ".vscode" and for "/src/", "\src\",
"/target/", "\target\" over the lowercased rendered path, plus
basename equality for "src", "target", "cargo.toml", "cargo.lock",
plus equality with the running executable. -/
def is_protected_amended (exe : Option FsPath) (p : FsPath) : Bool :=
  let s := lowerL (pathChars p)
  let base := lowerL (fileName p).data
  hasSubChars s ".blk".data
  || hasSubChars s ".git".data
  || hasSubChars s ".vscode".data
  || base == "src".data || base == "target".data
  || base == "cargo.toml".data || base == "cargo.lock".data
  || hasSubChars s "/src/".data || hasSubChars s "\\src\\".data
  || hasSubChars s "/target/".data || hasSubChars s "\\target\\".data
  || (match exe with
      | some e => p == e
      | none => false)

/-- Decompose segs as root ++ (e :: rest): the first segment after the
scope root together with the remainder, when the path lies strictly
under the root. -/
def splitUnder : List String → List String → Option (String × List String)
  | [], [] => none
  | [], e :: rest => some (e, rest)
  | _ :: _, [] => none
  | r :: rs, s :: ss => if r = s then splitUnder rs ss else none

/-- The per-file survival test of one scope pass of engine.rs
nuke_scopes (lines 243-275): the wipe enumerates the depth-1 entries of
the scope root, skips an entry when should_ignore flags it, and
otherwise removes the entry recursively (remove_dir_all / remove_file).
So a file survives the pass iff it is not strictly under the root, or
the depth-1 entry it lies under is flagged by should_ignore. -/
def keptByWipe (exe : Option FsPath) (root : List String) (p : FsPath) : Bool :=
  match splitUnder root p.segs with
  | none => true
  | some (e, _) => should_ignore exe ⟨root ++ [e]⟩

/-- One scope pass of engine.rs nuke_scopes: all removals succeed in
the model (the source ignores removal failures). -/
def nukeScope (exe : Option FsPath) (root : List String) (fs : List FsPath) : List FsPath :=
  fs.filter (fun p => keptByWipe exe root p)

/-- engine.rs nuke_scopes (lines 243-275): iterate the wipe over every
configured scope root.  Roots are given as segment lists. -/
def nuke_scopes (exe : Option FsPath) (roots : List (List String)) (fs : List FsPath) : List FsPath :=
  roots.foldl (fun acc root => nukeScope exe root acc) fs

/-- models.rs SetManifest (lines 5-22). -/
structure SetManifest where
  id : String
  name : String
  parent_id : Option String
  created_at : Nat
  scopes : List String
  exclusions : List String
  deleted_paths : List String
deriving DecidableEq, Repr

/-- The manifests_cache of main.rs, as an association list keyed by
set id. -/
abbrev ManifestStore := List (String × SetManifest)

/-- main.rs resolve_dependencies (lines 258-273), with an explicit fuel
counter: the source loop pushes the current id and follows parent_id
while the id is present in the cache; it exits when the cursor is None
or the lookup misses, and returns the reversed stack.  The model
returns none exactly when the loop has not exited within the given
number of iterations, so the source loop terminates on some input iff
some fuel returns some here. -/
def resolve_dependencies_fuel (store : ManifestStore) :
    Nat → List String → Option String → Option (List String)
  | 0, _, _ => none
  | _ + 1, stack, none => some stack.reverse
  | n + 1, stack, some id =>
    match store.lookup id with
    | none => some stack.reverse
    | some man => resolve_dependencies_fuel store n (stack ++ [id]) man.parent_id

/-- The source's resolve_dependencies loop terminates on this store and
target. -/
def resolve_terminates (store : ManifestStore) (target : String) : Prop :=
  ∃ n r, resolve_dependencies_fuel store n [] (some target) = some r

/-- The ids the resolve loop pushes, with the same exit conditions and
the same fuel discipline as resolve_dependencies_fuel. -/
def visits (store : ManifestStore) : Nat → Option String → List String
  | 0, _ => []
  | _ + 1, none => []
  | n + 1, some id =>
    match store.lookup id with
    | none => []
    | some man => id :: visits store n man.parent_id

/-- One store entry respects a rank function: its parent, when
present, has strictly smaller rank. -/
def rankOk (rank : String → Nat) (pr : String × SetManifest) : Bool :=
  match pr.2.parent_id with
  | none => true
  | some p => decide (rank p < rank pr.1)

/-- A rank function witnessing that parent links only point to
strictly lower-ranked sets: the finite-store form of acyclicity. -/
def RankDecreasing (store : ManifestStore) (rank : String → Nat) : Prop :=
  ∀ pr ∈ store, rankOk rank pr = true

/-- A one-element store whose only manifest is its own parent: saving a
set whose derived id equals its declared parent id produces exactly
this shape. -/
def selfParentManifest : SetManifest :=
  ⟨"a", "A", some "a", 0, [], [], []⟩

/-- The manifest store holding just selfParentManifest. -/
def cyclicStore : ManifestStore := [("a", selfParentManifest)]

/-- A concrete root set, used to exercise the lineage walk. -/
def vanillaManifest : SetManifest :=
  ⟨"vanilla", "Vanilla", none, 0, ["Root"], [], []⟩

/-- A concrete child of vanillaManifest. -/
def edit1Manifest : SetManifest :=
  ⟨"edit1", "Edit 1", some "vanilla", 1, ["Root"], [], []⟩

/-- A two-set acyclic store: vanilla ← edit1. -/
def demoStore : ManifestStore :=
  [("vanilla", vanillaManifest), ("edit1", edit1Manifest)]

/-- A rank showing demoStore's parent links are strictly decreasing. -/
def demoRank : String → Nat := fun id => if id = "edit1" then 1 else 0

/-- The restore-phase filesystem: contents stored at each absolute
path (none = no file there). -/
abbrev FsMap := FsPath → Option String

/-- config.path_map of models.rs BlkConfig: scope name → scope root
segments, as an association list. -/
abbrev PathMap := List (String × List String)

/-- Destination resolution for one extracted archive entry
(engine.rs 631-652): the first component of the entry's relative path
names the scope; if the scope is in path_map the rest is joined under
its root, otherwise the whole relative path is joined under the Root
scope; entries resolve to nothing when neither is configured. -/
def destOf (pathMap : PathMap) (rel : List String) : Option FsPath :=
  match rel with
  | [] => none
  | scope :: rest =>
    match pathMap.lookup scope with
    | some base => some ⟨base ++ rest⟩
    | none =>
      match pathMap.lookup "Root" with
      | some rootBase => some ⟨rootBase ++ (scope :: rest)⟩
      | none => none

/-- fs::copy with overwrite into the destination path. -/
def fsWrite (fs : FsMap) (dst : FsPath) (content : String) : FsMap :=
  fun q => if q = dst then some content else fs q

/-- The copy loop of engine_restore_chain over one layer's extracted
archive entries (engine.rs 621-661), in archive order. -/
def applyCopies (pathMap : PathMap) (entries : List (List String × String))
    (fs : FsMap) : FsMap :=
  entries.foldl (fun acc e =>
    match destOf pathMap e.1 with
    | some dst => fsWrite acc dst e.2
    | none => acc) fs

/-- Rust str::split_once("::") on the character list of a tombstone
key: split at the first occurrence of "::". -/
def splitOnColonsChars : List Char → Option (List Char × List Char)
  | [] => none
  | ':' :: ':' :: rest => some ([], rest)
  | c :: rest =>
    match splitOnColonsChars rest with
    | some (a, b) => some (c :: a, b)
    | none => none

/-- Splitting a character list at '/' into path segments, modelling
how Path::join re-splits a relative path string. -/
def splitSlashChars : List Char → List (List Char)
  | [] => [[]]
  | '/' :: rest => [] :: splitSlashChars rest
  | c :: rest =>
    match splitSlashChars rest with
    | [] => [[c]]
    | a :: as => (c :: a) :: as

/-- The segments of a '/'-separated relative path. -/
def relSegsOfChars (cs : List Char) : List String :=
  (splitSlashChars cs).map (fun l => ⟨l⟩)

/-- Tombstone target resolution of engine_restore_chain
(engine.rs 673-678): split the key at "::"; the deletion applies only
when the scope is configured in path_map (no Root fallback here). -/
def tombstoneDest (pathMap : PathMap) (key : String) : Option FsPath :=
  match splitOnColonsChars key.data with
  | none => none
  | some (scopeCs, relCs) =>
    match pathMap.lookup (⟨scopeCs⟩ : String) with
    | none => none
    | some base => some ⟨base ++ relSegsOfChars relCs⟩

/-- The tombstone loop of engine_restore_chain (engine.rs 670-685):
remove each resolved target (remove_file; removing an absent file is
the identity in the map model). -/
def applyTombstones (pathMap : PathMap) (dels : List String) (fs : FsMap) : FsMap :=
  dels.foldl (fun acc key =>
    match tombstoneDest pathMap key with
    | some tgt => fun q => if q = tgt then none else acc q
    | none => acc) fs

/-- Replay of one restore layer (engine.rs 597-686): first every file
copy from the layer's archive, then the layer's tombstones. -/
def restore_layer (pathMap : PathMap) (entries : List (List String × String))
    (dels : List String) (fs : FsMap) : FsMap :=
  applyTombstones pathMap dels (applyCopies pathMap entries fs)

/-- A one-scope path map used in witnesses. -/
def demoPathMap : PathMap := [("Root", ["r"])]

/-- models.rs FileEntry (lines 24-29). -/
structure FileEntry where
  hash : String
  size : Nat
  modified : Nat
deriving DecidableEq, Repr

/-- models.rs DiffSummary (lines 31-37). -/
structure DiffSummary where
  new_files : Nat
  modified_files : Nat
  deleted_files : Nat
  is_dirty : Bool
deriving DecidableEq, Repr

/-- A scan/baseline state: path key → file entry, as an association
list standing in for the source's HashMap. -/
abbrev StateMap := List (String × FileEntry)

/-- The keys of a state map. -/
def keysOf (m : StateMap) : List String := m.map Prod.fst

/-- Loop-body test of engine_check_changes counting an entry whose key
the other map lacks (the None arm for new files, and the
!contains_key test for deleted files). -/
def missingFromPred (other : StateMap) (kv : String × FileEntry) : Bool :=
  (other.lookup kv.1).isNone

/-- Loop-body test of engine_check_changes counting a current entry
whose baseline entry exists with a different hash. -/
def isModifiedPred (baseline : StateMap) (kv : String × FileEntry) : Bool :=
  match baseline.lookup kv.1 with
  | some old => kv.2.hash != old.hash
  | none => false

/-- engine.rs engine_check_changes (lines 545-574): count current
entries missing from the baseline (new), current entries whose
baseline entry has a different hash (modified), and baseline keys
missing from current (deleted); dirty iff any count is positive.
Counting with countP is iteration-order independent, matching the
HashMap loops of the source. -/
def engine_check_changes (current baseline : StateMap) : DiffSummary :=
  let nf := current.countP (missingFromPred baseline)
  let mf := current.countP (isModifiedPred baseline)
  let df := baseline.countP (missingFromPred current)
  ⟨nf, mf, df, decide (0 < nf) || decide (0 < mf) || decide (0 < df)⟩

/-- One file met by the scanner walk: its absolute path plus the
stat data (size, mtime seconds) and the contents hash_file would
stream.  scan_state only visits files, so walks carry files only. -/
structure ScanFile where
  path : FsPath
  size : Nat
  modified : Nat
  contents : String
deriving DecidableEq, Repr

/-- Rust path.strip_prefix(root): the remainder of the segments when
root is a prefix, none otherwise. -/
def stripPrefixSegs : List String → List String → Option (List String)
  | [], segs => some segs
  | _ :: _, [] => none
  | r :: rs, s :: ss => if r = s then stripPrefixSegs rs ss else none

/-- Join segments with '/' into the character list of the relative
path, as the scanner renders keys. -/
def joinSlash : List String → List Char
  | [] => []
  | [s] => s.data
  | s :: rest => s.data ++ '/' :: joinSlash rest

/-- The scanner's path key: "{scope}::{relpath}" with the relative
path taken by strip_prefix (falling back to the full path, matching
unwrap_or). -/
def scanKey (scopeName : String) (root : List String) (p : FsPath) : String :=
  ⟨scopeName.data ++ ':' :: ':' :: joinSlash ((stripPrefixSegs root p.segs).getD p.segs)⟩

/-- The hash decision of scan_state (engine.rs 380-392): reuse the
prior hash verbatim when the prior baseline holds this key with equal
size and modified time, otherwise hash the file contents. -/
def scanHash (hashF : String → String) (prior : Option StateMap) (key : String)
    (size modified : Nat) (contents : String) : String :=
  match prior with
  | some prev =>
    match prev.lookup key with
    | some old =>
      if old.size = size ∧ old.modified = modified then old.hash else hashF contents
    | none => hashF contents
  | none => hashF contents

/-- The reuse rule as claim C6 words it: when the prior baseline
supplies an entry at the same key with equal size and equal modified
time its hash is taken verbatim, otherwise (no prior baseline, no
prior entry, or differing size or mtime) the hash is freshly computed
from the file contents. -/
def reuseRuleHash (hashF : String → String) (prior : Option StateMap) (key : String)
    (size modified : Nat) (contents : String) : String :=
  match prior.bind (fun prev => prev.lookup key) with
  | some old =>
    if old.size = size ∧ old.modified = modified then old.hash else hashF contents
  | none => hashF contents

/-- HashMap.insert: overwrite the binding when the key is present,
append it otherwise. -/
def insertEntry (m : StateMap) (k : String) (v : FileEntry) : StateMap :=
  if (m.lookup k).isSome then
    m.map (fun kv => if kv.1 = k then (k, v) else kv)
  else m ++ [(k, v)]

/-- The scanner's exclusion gate: neither should_ignore nor
matches_exclusion fires.  matches_exclusion calls into the external
glob crate, so it enters the model as an opaque-to-us boolean
predicate parameter excl. -/
def passesFilters (exe : Option FsPath) (excl : FsPath → Bool) (f : ScanFile) : Bool :=
  !(should_ignore exe f.path) && !(excl f.path)

/-- One scope of a scan: scope name, scope root segments, and the
files WalkDir yields under that root, in walk order. -/
abbrev ScanWalk := String × List String × List ScanFile

/-- engine.rs scan_state (lines 333-407): walk each scope, skip
filtered paths, and insert an entry whose hash follows the reuse
rule. -/
def scan_state (exe : Option FsPath) (hashF : String → String) (excl : FsPath → Bool)
    (walks : List ScanWalk) (prior : Option StateMap) : StateMap :=
  walks.foldl (fun acc w =>
    w.2.2.foldl (fun acc2 f =>
      if should_ignore exe f.path then acc2
      else if excl f.path then acc2
      else insertEntry acc2 (scanKey w.1 w.2.1 f.path)
        ⟨scanHash hashF prior (scanKey w.1 w.2.1 f.path) f.size f.modified f.contents,
         f.size, f.modified⟩) acc) []

/-- The key/entry pairs scan_state inserts, in insertion order. -/
def scanPairs (exe : Option FsPath) (hashF : String → String) (excl : FsPath → Bool)
    (walks : List ScanWalk) (prior : Option StateMap) : StateMap :=
  walks.flatMap (fun w =>
    (w.2.2.filter (passesFilters exe excl)).map (fun f =>
      (scanKey w.1 w.2.1 f.path,
       ⟨scanHash hashF prior (scanKey w.1 w.2.1 f.path) f.size f.modified f.contents,
        f.size, f.modified⟩)))

/-- Folding HashMap.insert over a pair list. -/
def insFold (m : StateMap) (ps : StateMap) : StateMap :=
  ps.foldl (fun acc p => insertEntry acc p.1 p.2) m

/-- A concrete scanned file for witnesses. -/
def demoScanFile : ScanFile := ⟨⟨["r", "a.txt"]⟩, 5, 100, "data"⟩

/-- A one-scope walk meeting demoScanFile. -/
def demoWalks : List ScanWalk := [("Root", ["r"], [demoScanFile])]

/-- A prior baseline holding demoScanFile's key with equal size and
mtime, so its hash is reused. -/
def demoPrior : StateMap := [("Root::a.txt", ⟨"oldhash", 5, 100⟩)]

/-- A concrete stand-in for the content hash in witnesses. -/
def demoHashF : String → String := fun c => ⟨'H' :: c.data⟩

/-- No exclusions configured. -/
def noExcl : FsPath → Bool := fun _ => false

/-- The progress-relevant outcome of one layer of a restore: whether
the layer's archive exists on disk and, if so, whether its extraction
succeeds. -/
structure LayerOutcome where
  id : String
  archiveExists : Bool
  extractOk : Bool
deriving DecidableEq, Repr

/-- Percent of the per-layer unpack message (engine.rs 599):
10.0 + (idx / ids.len().max(1)) * 80.0.  f32 arithmetic is modelled
exactly over the rationals; the claim concerns ordering, which the
f32 rounding of these monotone expressions preserves. -/
def layerPercent (idx total : Nat) : Rat :=
  10 + ((idx : Rat) / ((max total 1 : Nat) : Rat)) * 80

/-- The percents sent inside the layer loop of engine_restore_chain
(lines 597-686): the unpack label for each layer, plus the 100.0
extract-error diagnostic (line 615) when an existing archive fails to
extract, after which the loop continues with the next layer. -/
def layerTrace (total : Nat) : Nat → List LayerOutcome → List Rat
  | _, [] => []
  | idx, L :: rest =>
    (layerPercent idx total
        :: (if L.archiveExists && !L.extractOk then [100] else []))
      ++ layerTrace total (idx + 1) rest

/-- The percent of every progress event engine_restore_chain sends
(lines 589-694) in order: 0.0 at wipe start, 0.0 per existing scope
root inside nuke_scopes, 10.0 after the wipe, the per-layer percents,
then 95.0, 99.0 and the terminal 100.0. -/
def restoreTracePercents (scopeCount : Nat) (layers : List LayerOutcome) : List Rat :=
  0 :: (List.replicate scopeCount 0
    ++ 10 :: (layerTrace layers.length 0 layers ++ [95, 99, 100]))

/-- Two layers whose first archive exists but fails to extract. -/
def badLayers : List LayerOutcome :=
  [⟨"a", true, false⟩, ⟨"b", true, true⟩]

/-- The state of one output path during archive extraction: whether a
file exists there, its permission mode bits, and its contents. -/
structure XFile where
  present : Bool
  mode : Nat
  data : String
deriving DecidableEq, Repr

/-- POSIX fs::set_permissions: chmod fails on a nonexistent path and
the source discards the error (let _ = ...), so the state is unchanged
when no file is present. -/
def set_permissions (st : XFile) (m : Nat) : XFile :=
  if st.present then { st with mode := m } else st

/-- File::create: truncates an existing file keeping its mode, or
creates a fresh file carrying the process default creation mode. -/
def file_create (createMode : Nat) (st : XFile) : XFile :=
  { present := true, mode := if st.present then st.mode else createMode, data := "" }

/-- One file entry of extract_zip_archive (engine.rs 204-233), in the
source's order: set_permissions with the entry's stored unix mode
(lines 220-226) runs BEFORE File::create (line 228) and the io::copy
of the contents (line 231). -/
def extract_entry (createMode storedMode : Nat) (content : String) (st : XFile) : XFile :=
  { file_create createMode (set_permissions st storedMode) with data := content }

/-- The three outcomes of hash_file's I/O (engine.rs 321-331): the
open fails; the open succeeds but the streamed read (io::copy) fails;
or the whole contents are read as bytes. -/
inductive FileRead where
  | cantOpen : FileRead
  | readFails : FileRead
  | ok : List (Fin 256) → FileRead
deriving DecidableEq, Repr

/-- hex::encode of one nibble: lowercase hexadecimal digit. -/
def hexDigit (n : Nat) : Char :=
  if n < 10 then Char.ofNat (48 + n) else Char.ofNat (87 + n)

/-- hex::encode of one byte: high nibble then low nibble. -/
def hexByte (b : Fin 256) : List Char :=
  [hexDigit (b.val / 16), hexDigit (b.val % 16)]

/-- hex::encode of a byte sequence. -/
def hexEncode (bs : List (Fin 256)) : String :=
  ⟨bs.flatMap hexByte⟩

/-- A SHA-256 digest is 32 bytes.  The sha2 crate is external to the
repository, so the digest function enters the model as a parameter
carrying exactly the crate's interface guarantee. -/
abbrev Digest := { l : List (Fin 256) // l.length = 32 }

/-- engine.rs hash_file (lines 321-331): empty string when the open
fails, empty string when io::copy fails, hex-encoded digest of the
contents otherwise. -/
def hash_file (digest : List (Fin 256) → Digest) : FileRead → String
  | .cantOpen => ""
  | .readFails => ""
  | .ok contents => hexEncode (digest contents).val

/-- A concrete digest stand-in for witnesses. -/
def demoDigest : List (Fin 256) → Digest := fun _ => ⟨List.replicate 32 0, by simp⟩

/-- The sixteen lowercase hexadecimal characters. -/
def hexChars : List Char := "0123456789abcdef".data

/-- The filesystem under the managed root as engine_auto_init sees it:
directories and files, paths relative to the root. -/
structure InitFS where
  dirs : List (List String)
  files : List (List String × String)
deriving DecidableEq, Repr

/-- engine.rs engine_auto_init (lines 428-498): the 10.0 banner is
sent first; when <root>/.blk already exists the function sends the
terminal 100.0 "Already initialized." and returns without touching
the filesystem; otherwise it creates the layout, snapshots the root
and writes config, manifest and baseline (payload bytes are
abstracted as opaque strings, which the claims do not inspect). -/
def engine_auto_init (fs : InitFS) : InitFS × List (Rat × String) :=
  if [".blk"] ∈ fs.dirs then
    (fs, [(10, "Creating .blk structure (v3.0 Nuke)..."), (100, "Already initialized.")])
  else
    ({ dirs := fs.dirs ++ [[".blk"], [".blk", "sets"], [".blk", "snapshots"]],
       files := fs.files
         ++ [([".blk", "config.json"], "config"),
             ([".blk", "sets", "vanilla.json"], "vanilla manifest"),
             ([".blk", "snapshots", "vanilla.zip"], "vanilla archive"),
             ([".blk", "baseline.json"], "baseline")] },
     [(10, "Creating .blk structure (v3.0 Nuke)..."),
      (40, "Creating vanilla snapshot..."),
      (80, "Building baseline..."),
      (100, "✅ Initialization complete.")])

/-- A concrete current scan with one new and one modified key. -/
def demoCurrent : StateMap :=
  [("Root::a.txt", ⟨"h1", 1, 10⟩), ("Root::b.txt", ⟨"h2", 2, 20⟩)]

/-- A concrete baseline sharing key Root::b.txt (other hash) and with
one key that disappeared. -/
def demoBaseline : StateMap :=
  [("Root::b.txt", ⟨"hX", 2, 20⟩), ("Root::c.txt", ⟨"h3", 3, 30⟩)]

end Blk

namespace Blk

theorem lookup_mem {α : Type} {store : List (String × α)} {id : String} {man : α}
    (h : store.lookup id = some man) : (id, man) ∈ store := by
  induction store with
  | nil => simp [List.lookup] at h
  | cons kv rest ih =>
    rw [List.lookup] at h
    by_cases hk : id == kv.1
    · simp [hk] at h
      have hid : id = kv.1 := eq_of_beq hk
      have hkv : (id, man) = kv := by
        cases kv
        simp only [Prod.mk.injEq]
        exact ⟨hid, h.symm⟩
      rw [hkv]
      exact List.mem_cons_self _ _
    · simp [hk] at h
      exact List.mem_cons_of_mem _ (ih h)

theorem resolve_cyclic_stuck (n : Nat) :
    ∀ stack, resolve_dependencies_fuel cyclicStore n stack (some "a") = none := by
  induction n with
  | zero => intro stack; rfl
  | succ n ih =>
    intro stack
    have hl : cyclicStore.lookup "a" = some selfParentManifest := by rfl
    rw [resolve_dependencies_fuel, hl]
    exact ih (stack ++ ["a"])

theorem resolve_result_eq_visits (store : ManifestStore) (n : Nat) :
    ∀ stack cur r, resolve_dependencies_fuel store n stack cur = some r →
      r = (stack ++ visits store n cur).reverse := by
  induction n with
  | zero => intro stack cur r h; simp [resolve_dependencies_fuel] at h
  | succ n ih =>
    intro stack cur r h
    cases cur with
    | none =>
      simp [resolve_dependencies_fuel] at h
      simp [visits, ← h]
    | some id =>
      rw [resolve_dependencies_fuel] at h
      cases hl : store.lookup id with
      | none =>
        rw [hl] at h
        simp at h
        simp [visits, hl, ← h]
      | some man =>
        rw [hl] at h
        have := ih (stack ++ [id]) man.parent_id r h
        rw [this, visits, hl]
        simp

theorem resolve_terminates_of_rank (store : ManifestStore) (rank : String → Nat)
    (hrank : RankDecreasing store rank) (k : Nat) :
    ∀ cur stack, (∀ id, cur = some id → rank id < k) →
      ∃ r, resolve_dependencies_fuel store (k + 1) stack cur = some r := by
  induction k with
  | zero =>
    intro cur stack h
    cases cur with
    | none => exact ⟨stack.reverse, rfl⟩
    | some id => exact absurd (h id rfl) (Nat.not_lt_zero _)
  | succ k ih =>
    intro cur stack h
    cases cur with
    | none => exact ⟨stack.reverse, rfl⟩
    | some id =>
      cases hl : store.lookup id with
      | none =>
        refine ⟨stack.reverse, ?_⟩
        rw [resolve_dependencies_fuel, hl]
      | some man =>
        have hid : rank id < k + 1 := h id rfl
        have hpar : ∀ p, man.parent_id = some p → rank p < k := by
          intro p hp
          have hmem := lookup_mem hl
          have hok := hrank (id, man) hmem
          simp only [rankOk, hp] at hok
          exact Nat.lt_of_lt_of_le (of_decide_eq_true hok) (Nat.le_of_lt_succ hid)
        obtain ⟨r, hr⟩ := ih man.parent_id (stack ++ [id]) hpar
        refine ⟨r, ?_⟩
        rw [resolve_dependencies_fuel, hl]
        exact hr

theorem visits_getLast_root (store : ManifestStore) (rank : String → Nat)
    (hrank : RankDecreasing store rank) (n : Nat) :
    ∀ cur x, (∀ id, cur = some id → rank id < n) →
      (visits store n cur).getLast? = some x →
      ∃ man, store.lookup x = some man ∧
        (man.parent_id = none ∨ ∃ p, man.parent_id = some p ∧ store.lookup p = none) := by
  induction n with
  | zero => intro cur x _ h; simp [visits] at h
  | succ n ih =>
    intro cur x hlt h
    cases cur with
    | none => simp [visits] at h
    | some id =>
      cases hl : store.lookup id with
      | none => simp [visits, hl] at h
      | some man =>
        simp only [visits, hl] at h
        have hpar : ∀ p, man.parent_id = some p → rank p < n := by
          intro p hp
          have hok := hrank (id, man) (lookup_mem hl)
          simp only [rankOk, hp] at hok
          exact Nat.lt_of_lt_of_le (of_decide_eq_true hok) (Nat.le_of_lt_succ (hlt id rfl))
        cases hv : visits store n man.parent_id with
        | nil =>
          rw [hv] at h
          simp at h
          subst h
          refine ⟨man, hl, ?_⟩
          cases hp : man.parent_id with
          | none => exact Or.inl rfl
          | some p =>
            cases hlp : store.lookup p with
            | none => exact Or.inr ⟨p, rfl, hlp⟩
            | some pman =>
              exfalso
              have hn : rank p < n := hpar p hp
              cases n with
              | zero => exact Nat.not_lt_zero _ hn
              | succ m =>
                rw [hp] at hv
                simp only [visits, hlp] at hv
                exact List.cons_ne_nil _ _ hv
        | cons y ys =>
          rw [hv] at h
          rw [List.getLast?_cons_cons] at h
          have := ih man.parent_id x hpar
          rw [hv] at this
          exact this h

theorem lookup_isSome_iff {α : Type} (l : List (String × α)) (k : String) :
    (l.lookup k).isSome = true ↔ k ∈ l.map Prod.fst := by
  induction l with
  | nil => simp [List.lookup]
  | cons kv rest ih =>
    rw [List.lookup]
    by_cases hk : k == kv.1
    · have hkk : k = kv.1 := eq_of_beq hk
      simp [hk, hkk]
    · have hkk : ¬ k = kv.1 := fun h => hk (by rw [h]; exact beq_self_eq_true _)
      simp [hk, hkk, ih]

theorem lookup_isNone_eq {α : Type} (l : List (String × α)) (k : String) :
    (l.lookup k).isNone = decide (¬ k ∈ l.map Prod.fst) := by
  by_cases h : k ∈ l.map Prod.fst
  · have hs := (lookup_isSome_iff l k).mpr h
    cases hl : l.lookup k with
    | none => rw [hl] at hs; simp at hs
    | some v => simp [h]
  · have hs : ¬ (l.lookup k).isSome = true := fun hx => h ((lookup_isSome_iff l k).mp hx)
    cases hl : l.lookup k with
    | none => simp [h]
    | some v => rw [hl] at hs; simp at hs

theorem lookup_of_mem_nodup {α : Type} {l : List (String × α)}
    (hnd : (l.map Prod.fst).Nodup) {kv : String × α} (h : kv ∈ l) :
    l.lookup kv.1 = some kv.2 := by
  induction l with
  | nil => cases h
  | cons x rest ih =>
    rw [List.map_cons, List.nodup_cons] at hnd
    cases h with
    | head => rw [List.lookup]; simp
    | tail _ hmem =>
      have hne : (kv.1 == x.1) = false := by
        rw [beq_eq_false_iff_ne]
        intro heq
        exact hnd.1 (heq ▸ List.mem_map_of_mem Prod.fst hmem)
      rw [List.lookup]
      simp only [hne]
      exact ih hnd.2 hmem

theorem applyTombstones_none (pathMap : PathMap) (dels : List String) :
    ∀ fs : FsMap, ∀ P, fs P = none → applyTombstones pathMap dels fs P = none := by
  induction dels with
  | nil => intro fs P h; exact h
  | cons d rest ih =>
    intro fs P h
    simp only [applyTombstones, List.foldl_cons] at ih ⊢
    cases hd : tombstoneDest pathMap d with
    | none => simp only [hd]; exact ih fs P h
    | some tgt =>
      simp only [hd]
      refine ih _ P ?_
      by_cases hP : P = tgt <;> simp [hP, h]

theorem applyTombstones_kills (pathMap : PathMap) {dels : List String}
    {key : String} {P : FsPath} (hkey : key ∈ dels)
    (hdst : tombstoneDest pathMap key = some P) :
    ∀ fs : FsMap, applyTombstones pathMap dels fs P = none := by
  induction dels with
  | nil => cases hkey
  | cons d rest ih =>
    intro fs
    have ihn := applyTombstones_none pathMap rest
    simp only [applyTombstones, List.foldl_cons] at ihn ⊢
    cases hkey with
    | head =>
      simp only [hdst]
      refine ihn _ P ?_
      simp
    | tail _ hmem =>
      have ih2 := ih hmem
      simp only [applyTombstones] at ih2
      cases hd : tombstoneDest pathMap d with
      | none => simp only [hd]; exact ih2 _
      | some tgt => simp only [hd]; exact ih2 _

theorem foldl_if_filter {α β : Type} (p : α → Bool) (g : β → α → β) (l : List α) :
    ∀ b : β, l.foldl (fun acc a => if p a then g acc a else acc) b
      = (l.filter p).foldl g b := by
  induction l with
  | nil => intro b; rfl
  | cons a rest ih =>
    intro b
    cases h : p a with
    | true => simp [List.filter_cons, List.foldl_cons, h]; exact ih (g b a)
    | false => simp [List.filter_cons, List.foldl_cons, h]; exact ih b

theorem foldl_flatMap {α β γ : Type} (f : α → List β) (g : γ → β → γ) (l : List α) :
    ∀ b : γ, (l.flatMap f).foldl g b = l.foldl (fun acc a => (f a).foldl g acc) b := by
  induction l with
  | nil => intro b; rfl
  | cons a rest ih =>
    intro b
    rw [List.flatMap_cons, List.foldl_append, List.foldl_cons]
    exact ih _

theorem lookup_append {α : Type} (l1 l2 : List (String × α)) (k : String) :
    (l1 ++ l2).lookup k
      = match l1.lookup k with
        | some v => some v
        | none => l2.lookup k := by
  induction l1 with
  | nil => rfl
  | cons kv rest ih =>
    rw [List.cons_append, List.lookup, List.lookup]
    cases h : (k == kv.1) with
    | true => rfl
    | false => exact ih

theorem lookup_map_replace_ne {m : StateMap} {k k2 : String} (v : FileEntry)
    (hne : k2 ≠ k) :
    (m.map (fun kv => if kv.1 = k then (k, v) else kv)).lookup k2 = m.lookup k2 := by
  induction m with
  | nil => rfl
  | cons kv rest ih =>
    rw [List.map_cons]
    by_cases hk : kv.1 = k
    · rw [if_pos hk]
      rw [List.lookup, List.lookup]
      have h2 : (k2 == k) = false := beq_eq_false_iff_ne.mpr hne
      have h3 : (k2 == kv.1) = false := by
        rw [beq_eq_false_iff_ne]
        intro heq
        exact hne (heq.trans hk)
      simp only [h2, h3]
      exact ih
    · rw [if_neg hk]
      rw [List.lookup, List.lookup]
      cases h : (k2 == kv.1) with
      | true => rfl
      | false => exact ih

theorem lookup_map_replace_eq {m : StateMap} {k : String} (v : FileEntry)
    (hs : (m.lookup k).isSome = true) :
    (m.map (fun kv => if kv.1 = k then (k, v) else kv)).lookup k = some v := by
  induction m with
  | nil => simp [List.lookup] at hs
  | cons kv rest ih =>
    rw [List.map_cons]
    by_cases hk : kv.1 = k
    · rw [if_pos hk]
      rw [List.lookup]
      simp
    · rw [if_neg hk]
      rw [List.lookup]
      have h3 : (k == kv.1) = false := beq_eq_false_iff_ne.mpr (fun h => hk h.symm)
      simp only [h3]
      rw [List.lookup] at hs
      rw [h3] at hs
      exact ih hs

theorem insertEntry_lookup (m : StateMap) (k : String) (v : FileEntry) (k2 : String) :
    (insertEntry m k v).lookup k2 = if k2 = k then some v else m.lookup k2 := by
  unfold insertEntry
  by_cases hs : (m.lookup k).isSome = true
  · rw [if_pos hs]
    by_cases hk2 : k2 = k
    · subst hk2
      rw [if_pos rfl]
      exact lookup_map_replace_eq v hs
    · rw [if_neg hk2]
      exact lookup_map_replace_ne v hk2
  · rw [if_neg hs]
    rw [lookup_append]
    by_cases hk2 : k2 = k
    · subst hk2
      have hn : m.lookup k2 = none := by
        cases h : m.lookup k2 with
        | none => rfl
        | some v2 => rw [h] at hs; simp at hs
      rw [hn, if_pos rfl]
      rw [List.lookup]
      simp
    · rw [if_neg hk2]
      cases h : m.lookup k2 with
      | some v2 => rfl
      | none =>
        rw [List.lookup]
        have h3 : (k2 == k) = false := beq_eq_false_iff_ne.mpr hk2
        simp only [h3]
        rfl

theorem insFold_lookup {ps : StateMap} (hnd : (keysOf ps).Nodup) :
    ∀ m k, (insFold m ps).lookup k
      = match ps.lookup k with
        | some v => some v
        | none => m.lookup k := by
  induction ps with
  | nil => intro m k; rfl
  | cons p rest ih =>
    intro m k
    rw [keysOf, List.map_cons, List.nodup_cons] at hnd
    have hstep : insFold m (p :: rest) = insFold (insertEntry m p.1 p.2) rest := rfl
    rw [hstep, ih hnd.2]
    cases hr : rest.lookup k with
    | some v =>
      have hkmem : k ∈ List.map Prod.fst rest :=
        (lookup_isSome_iff rest k).mp (by rw [hr]; rfl)
      have hkne : (k == p.1) = false := by
        rw [beq_eq_false_iff_ne]
        intro heq
        exact hnd.1 (heq ▸ hkmem)
      rw [List.lookup]
      simp only [hkne, hr]
    | none =>
      rw [List.lookup]
      cases hb : (k == p.1) with
      | true =>
        have hkp : k = p.1 := eq_of_beq hb
        simp only [insertEntry_lookup, if_pos hkp]
      | false =>
        have hkp : ¬ k = p.1 := by
          intro h
          rw [h, beq_self_eq_true] at hb
          cases hb
        simp only [insertEntry_lookup, if_neg hkp, hr]

theorem scan_state_eq (exe : Option FsPath) (hashF : String → String)
    (excl : FsPath → Bool) (walks : List ScanWalk) (prior : Option StateMap) :
    scan_state exe hashF excl walks prior
      = insFold [] (scanPairs exe hashF excl walks prior) := by
  unfold scan_state scanPairs insFold
  rw [foldl_flatMap]
  congr 1
  funext acc w
  rw [List.foldl_map, ← foldl_if_filter]
  congr 1
  funext acc2 f
  by_cases h1 : should_ignore exe f.path
  · simp [passesFilters, h1]
  · by_cases h2 : excl f.path <;> simp [passesFilters, h1, h2]

theorem castMaxPos (total : Nat) : (0 : Rat) < ((max total 1 : Nat) : Rat) := by
  have h1 : (1 : Nat) ≤ max total 1 := Nat.le_max_right total 1
  exact_mod_cast Nat.lt_of_lt_of_le Nat.zero_lt_one h1

theorem layerPercent_mono {i j : Nat} (total : Nat) (h : i ≤ j) :
    layerPercent i total ≤ layerPercent j total := by
  unfold layerPercent
  have hm := castMaxPos total
  have hc : (i : Rat) ≤ (j : Rat) := by exact_mod_cast h
  have hdiv : (i : Rat) / ((max total 1 : Nat) : Rat)
      ≤ (j : Rat) / ((max total 1 : Nat) : Rat) := by gcongr
  nlinarith [hdiv]

theorem layerPercent_lb (i total : Nat) : 10 ≤ layerPercent i total := by
  unfold layerPercent
  have hm := castMaxPos total
  have hdiv : (0 : Rat) ≤ (i : Rat) / ((max total 1 : Nat) : Rat) :=
    div_nonneg (by exact_mod_cast Nat.zero_le i) (le_of_lt hm)
  nlinarith [hdiv]

theorem layerPercent_ub {i total : Nat} (h : i < total) :
    layerPercent i total ≤ 90 := by
  unfold layerPercent
  have hm := castMaxPos total
  have hle : (i : Rat) ≤ ((max total 1 : Nat) : Rat) := by
    have h2 : i ≤ max total 1 := Nat.le_trans (Nat.le_of_lt h) (Nat.le_max_left total 1)
    exact_mod_cast h2
  have hdiv : (i : Rat) / ((max total 1 : Nat) : Rat) ≤ 1 :=
    (div_le_one hm).mpr hle
  nlinarith [hdiv]

theorem layerTrace_mem {layers : List LayerOutcome} (total : Nat)
    (hok : ∀ L ∈ layers, L.archiveExists = true → L.extractOk = true) :
    ∀ idx x, x ∈ layerTrace total idx layers →
      ∃ i, idx ≤ i ∧ i < idx + layers.length ∧ x = layerPercent i total := by
  induction layers with
  | nil => intro idx x hx; cases hx
  | cons L rest ih =>
    intro idx x hx
    have hL : (L.archiveExists && !L.extractOk) = false := by
      cases hA : L.archiveExists with
      | false => rfl
      | true =>
        have := hok L (List.mem_cons_self _ _) hA
        simp [this]
    rw [layerTrace, hL] at hx
    simp only [if_false, List.cons_append, List.nil_append] at hx
    cases hx with
    | head =>
      refine ⟨idx, Nat.le_refl idx, ?_, rfl⟩
      simp only [List.length_cons]
      omega
    | tail _ hmem =>
      have hok2 : ∀ L2 ∈ rest, L2.archiveExists = true → L2.extractOk = true :=
        fun L2 h2 => hok L2 (List.mem_cons_of_mem _ h2)
      obtain ⟨i, hi1, hi2, hi3⟩ := ih hok2 (idx + 1) x hmem
      refine ⟨i, Nat.le_trans (Nat.le_succ idx) hi1, ?_, hi3⟩
      simp only [List.length_cons]
      omega

theorem layerTrace_pairwise {layers : List LayerOutcome} (total : Nat)
    (hok : ∀ L ∈ layers, L.archiveExists = true → L.extractOk = true) :
    ∀ idx, List.Pairwise (· ≤ ·) (layerTrace total idx layers) := by
  induction layers with
  | nil => intro idx; exact List.Pairwise.nil
  | cons L rest ih =>
    intro idx
    have hL : (L.archiveExists && !L.extractOk) = false := by
      cases hA : L.archiveExists with
      | false => rfl
      | true =>
        have := hok L (List.mem_cons_self _ _) hA
        simp [this]
    rw [layerTrace, hL]
    simp only [if_false, List.cons_append, List.nil_append]
    have hok2 : ∀ L2 ∈ rest, L2.archiveExists = true → L2.extractOk = true :=
      fun L2 h2 => hok L2 (List.mem_cons_of_mem _ h2)
    refine List.pairwise_cons.mpr ⟨?_, ih hok2 (idx + 1)⟩
    intro y hy
    obtain ⟨i, hi1, _, hi3⟩ := layerTrace_mem total hok2 (idx + 1) y hy
    rw [hi3]
    exact layerPercent_mono total (Nat.le_trans (Nat.le_succ idx) hi1)

theorem pairwise_le_replicate_zero (k : Nat) :
    List.Pairwise (· ≤ ·) (List.replicate k (0 : Rat)) := by
  induction k with
  | zero => exact List.Pairwise.nil
  | succ k ih =>
    rw [List.replicate_succ]
    refine List.pairwise_cons.mpr ⟨?_, ih⟩
    intro y hy
    rw [List.eq_of_mem_replicate hy]

theorem scanHash_eq_reuseRuleHash (hashF : String → String) (prior : Option StateMap)
    (key : String) (size modified : Nat) (contents : String) :
    scanHash hashF prior key size modified contents
      = reuseRuleHash hashF prior key size modified contents := by
  cases prior with
  | none => rfl
  | some prev =>
    unfold scanHash reuseRuleHash
    cases prev.lookup key with
    | none => rfl
    | some old => rfl

end Blk

/-- Claim C3 counterexample: the path /home/user/forms.github is
classified as protected by should_ignore (the source tests ".git" by
substring containment on the whole rendered path), yet the claim's
segment-equality characterization classifies it as unprotected. -/
theorem c3_counterexample :
    Blk.should_ignore none ⟨["home", "user", "forms.github"]⟩ = true
    ∧ Blk.is_protected_claim none ⟨["home", "user", "forms.github"]⟩ = false := by
  decide

/-- Claim C3 amended: is_protected returns true exactly when,
case-insensitively, the rendered path contains ".blk", ".git" or
".vscode" as a substring, or its basename equals src, target,
Cargo.toml or Cargo.lock, or the rendered path contains "/src/",
"\src\", "/target/" or "\target\" as a substring, or the path equals
the currently running executable; and false otherwise. -/
theorem c3_is_protected_characterization (exe : Option Blk.FsPath) (p : Blk.FsPath) :
    Blk.should_ignore exe p = Blk.is_protected_amended exe p := by
  unfold Blk.should_ignore Blk.is_protected_amended
  refine Bool.eq_iff_iff.mpr ?_
  simp only [Bool.or_eq_true]
  tauto

/-- Claim C1 counterexample: the file /r/stuff/cargo.toml is protected
(its basename is cargo.toml), yet the nuclear wipe of scope root /r
deletes it: the wipe consults should_ignore only on the depth-1 entry
/r/stuff, which is unprotected, and then removes that whole subtree. -/
theorem c1_counterexample :
    Blk.should_ignore none ⟨["r", "stuff", "cargo.toml"]⟩ = true
    ∧ (⟨["r", "stuff", "cargo.toml"]⟩ : Blk.FsPath)
        ∈ ([⟨["r", "stuff", "cargo.toml"]⟩] : List Blk.FsPath)
    ∧ (⟨["r", "stuff", "cargo.toml"]⟩ : Blk.FsPath)
        ∉ Blk.nuke_scopes none [["r"]] [⟨["r", "stuff", "cargo.toml"]⟩] := by
  decide

/-- Claim C1 amended: the nuclear wipe keeps exactly the files that,
for every scope root, either do not lie strictly under that root or lie
under a depth-1 entry of it that the Safety Filter flags as protected.
In particular a protected path at depth 1 of a scope root is never
removed and shields its whole subtree, while a protected path nested
inside an unprotected depth-1 directory is removed together with that
directory. -/
theorem c1_wipe_characterization (exe : Option Blk.FsPath) (roots : List (List String))
    (fs : List Blk.FsPath) (p : Blk.FsPath) :
    p ∈ Blk.nuke_scopes exe roots fs ↔
      p ∈ fs ∧ ∀ root ∈ roots, Blk.keptByWipe exe root p = true := by
  induction roots generalizing fs with
  | nil => simp [Blk.nuke_scopes]
  | cons root rest ih =>
    have hstep : Blk.nuke_scopes exe (root :: rest) fs
        = Blk.nuke_scopes exe rest (Blk.nukeScope exe root fs) := rfl
    rw [hstep, ih]
    simp only [Blk.nukeScope, List.mem_filter, List.forall_mem_cons]
    tauto

/-- Claim C2 counterexample: on a store containing a manifest that is
its own parent, the resolve_dependencies loop never exits: no amount of
fuel makes the fuelled model return a result, so the walk does not
terminate, contradicting the claim that every cyclic parent
configuration ends the walk without error. -/
theorem c2_counterexample : ¬ Blk.resolve_terminates Blk.cyclicStore "a" := by
  rintro ⟨n, r, h⟩
  rw [Blk.resolve_cyclic_stuck n []] at h
  cases h

/-- Claim C2 amended: on every manifest store whose parent links admit
a strictly decreasing rank (equivalently, whose parent graph is
acyclic), the chain resolution walk terminates for every target and
returns the lineage with the root first: the target is the last
element, and the first element is a set whose parent is absent or
missing from the store.  On a cyclic store the walk does not terminate
(see the counterexample). -/
theorem c2_resolve_terminates_amended (store : Blk.ManifestStore) (rank : String → Nat)
    (target : String) (hrank : Blk.RankDecreasing store rank) :
    ∃ n r, Blk.resolve_dependencies_fuel store n [] (some target) = some r ∧
      (store.lookup target = none → r = []) ∧
      (∀ tman, store.lookup target = some tman →
        r.getLast? = some target ∧
        ∃ rootId rman, r.head? = some rootId ∧ store.lookup rootId = some rman ∧
          (rman.parent_id = none ∨ ∃ p, rman.parent_id = some p ∧ store.lookup p = none)) := by
  obtain ⟨r, hr⟩ := Blk.resolve_terminates_of_rank store rank hrank (rank target + 1)
    (some target) []
    (by intro id hid; cases hid; exact Nat.lt_succ_self _)
  refine ⟨rank target + 1 + 1, r, hr, ?_, ?_⟩
  · intro hnone
    have hv := Blk.resolve_result_eq_visits store _ [] _ r hr
    simp only [Blk.visits, hnone, List.nil_append] at hv
    simpa using hv
  · intro tman htman
    have hv := Blk.resolve_result_eq_visits store _ [] _ r hr
    simp only [List.nil_append] at hv
    have hvis : Blk.visits store (rank target + 1 + 1) (some target)
        = target :: Blk.visits store (rank target + 1) tman.parent_id := by
      simp [Blk.visits, htman]
    constructor
    · rw [hv, List.getLast?_reverse, hvis]
      rfl
    · have hne : Blk.visits store (rank target + 1 + 1) (some target) ≠ [] := by
        rw [hvis]; exact List.cons_ne_nil _ _
      obtain ⟨x, hx⟩ := Option.isSome_iff_exists.mp
        (List.getLast?_isSome.mpr hne)
      obtain ⟨rman, hrl, hroot⟩ := Blk.visits_getLast_root store rank hrank
        (rank target + 1 + 1) (some target) x
        (by intro id hid; cases hid; exact Nat.lt_succ_of_lt (Nat.lt_succ_self _))
        hx
      exact ⟨x, rman, by rw [hv, List.head?_reverse]; exact hx, hrl, hroot⟩

/-- Witness for the amended C2 theorem: on the concrete two-set store
vanilla ← edit1 the rank hypothesis holds and the walk resolves
edit1's lineage. -/
theorem c2_resolve_terminates_amended_witness :
    ∃ n r, Blk.resolve_dependencies_fuel Blk.demoStore n [] (some "edit1") = some r ∧
      (Blk.demoStore.lookup "edit1" = none → r = []) ∧
      (∀ tman, Blk.demoStore.lookup "edit1" = some tman →
        r.getLast? = some "edit1" ∧
        ∃ rootId rman, r.head? = some rootId ∧ Blk.demoStore.lookup rootId = some rman ∧
          (rman.parent_id = none ∨ ∃ p, rman.parent_id = some p ∧
            Blk.demoStore.lookup p = none)) :=
  c2_resolve_terminates_amended Blk.demoStore Blk.demoRank "edit1"
    (by unfold Blk.RankDecreasing; decide)

/-- Claim C4: within one restore layer, every file copy from the
layer's archive is applied before any of the layer's tombstones, so
when a layer both writes a file at destination P and carries a
tombstone resolving to P, the file is absent once the layer has been
replayed. -/
theorem c4_tombstone_wins_in_layer (pathMap : Blk.PathMap)
    (entries : List (List String × String)) (dels : List String)
    (fs : Blk.FsMap) (P : Blk.FsPath) (key : String)
    (_hadd : ∃ e ∈ entries, Blk.destOf pathMap e.1 = some P)
    (hkey : key ∈ dels) (hdst : Blk.tombstoneDest pathMap key = some P) :
    Blk.restore_layer pathMap entries dels fs P = none := by
  unfold Blk.restore_layer
  exact Blk.applyTombstones_kills pathMap hkey hdst _

/-- Witness for C4: a layer that copies Root/a.txt and tombstones
Root::a.txt leaves /r/a.txt absent. -/
theorem c4_tombstone_wins_in_layer_witness :
    Blk.restore_layer Blk.demoPathMap [(["Root", "a.txt"], "x")] ["Root::a.txt"]
      (fun _ => none) ⟨["r", "a.txt"]⟩ = none :=
  c4_tombstone_wins_in_layer Blk.demoPathMap [(["Root", "a.txt"], "x")] ["Root::a.txt"]
    (fun _ => none) ⟨["r", "a.txt"]⟩ "Root::a.txt"
    ⟨(["Root", "a.txt"], "x"), by decide, by decide⟩
    (by decide) (by decide)

/-- Claim C5: the diff reports new as the number of current keys not
in the baseline, modified as the number of keys in both whose hashes
differ (hash inequality being the sole criterion), deleted as the
number of baseline keys not in current, and dirty exactly when the
sum of the three counts is positive. -/
theorem c5_diff_counts (current baseline : Blk.StateMap)
    (hc : (Blk.keysOf current).Nodup) :
    (Blk.engine_check_changes current baseline).new_files
        = ((Blk.keysOf current).filter
            (fun k => decide (¬ k ∈ Blk.keysOf baseline))).length
    ∧ (Blk.engine_check_changes current baseline).modified_files
        = ((Blk.keysOf current).filter
            (fun k =>
              match current.lookup k, baseline.lookup k with
              | some ec, some eb => decide (¬ ec.hash = eb.hash)
              | _, _ => false)).length
    ∧ (Blk.engine_check_changes current baseline).deleted_files
        = ((Blk.keysOf baseline).filter
            (fun k => decide (¬ k ∈ Blk.keysOf current))).length
    ∧ ((Blk.engine_check_changes current baseline).is_dirty = true ↔
        0 < (Blk.engine_check_changes current baseline).new_files
          + (Blk.engine_check_changes current baseline).modified_files
          + (Blk.engine_check_changes current baseline).deleted_files) := by
  refine ⟨?_, ?_, ?_, ?_⟩
  · show current.countP (Blk.missingFromPred baseline) = _
    rw [← List.countP_eq_length_filter]
    simp only [Blk.keysOf]
    rw [List.countP_map]
    congr 1
    funext kv
    simp only [Blk.missingFromPred, Function.comp]
    exact Blk.lookup_isNone_eq baseline kv.1
  · show current.countP (Blk.isModifiedPred baseline) = _
    rw [← List.countP_eq_length_filter]
    simp only [Blk.keysOf]
    rw [List.countP_map, List.countP_eq_length_filter, List.countP_eq_length_filter]
    congr 1
    apply List.filter_congr
    intro kv hkv
    have hlk : current.lookup kv.1 = some kv.2 := Blk.lookup_of_mem_nodup hc hkv
    simp only [Blk.isModifiedPred, Function.comp, hlk]
    cases hb : baseline.lookup kv.1 with
    | none => rfl
    | some eb =>
      refine Bool.eq_iff_iff.mpr ?_
      simp [bne_iff_ne]
  · show baseline.countP (Blk.missingFromPred current) = _
    rw [← List.countP_eq_length_filter]
    simp only [Blk.keysOf]
    rw [List.countP_map]
    congr 1
    funext kv
    simp only [Blk.missingFromPred, Function.comp]
    exact Blk.lookup_isNone_eq current kv.1
  · show (decide (0 < current.countP (Blk.missingFromPred baseline))
        || decide (0 < current.countP (Blk.isModifiedPred baseline))
        || decide (0 < baseline.countP (Blk.missingFromPred current))) = true ↔
        0 < current.countP (Blk.missingFromPred baseline)
          + current.countP (Blk.isModifiedPred baseline)
          + baseline.countP (Blk.missingFromPred current)
    simp only [Bool.or_eq_true, decide_eq_true_eq]
    omega

/-- Witness for C5 on concrete two-entry maps: one new key, one
modified key, one deleted key, dirty. -/
theorem c5_diff_counts_witness :
    (Blk.engine_check_changes Blk.demoCurrent Blk.demoBaseline).new_files
        = ((Blk.keysOf Blk.demoCurrent).filter
            (fun k => decide (¬ k ∈ Blk.keysOf Blk.demoBaseline))).length
    ∧ (Blk.engine_check_changes Blk.demoCurrent Blk.demoBaseline).modified_files
        = ((Blk.keysOf Blk.demoCurrent).filter
            (fun k =>
              match Blk.demoCurrent.lookup k, Blk.demoBaseline.lookup k with
              | some ec, some eb => decide (¬ ec.hash = eb.hash)
              | _, _ => false)).length
    ∧ (Blk.engine_check_changes Blk.demoCurrent Blk.demoBaseline).deleted_files
        = ((Blk.keysOf Blk.demoBaseline).filter
            (fun k => decide (¬ k ∈ Blk.keysOf Blk.demoCurrent))).length
    ∧ ((Blk.engine_check_changes Blk.demoCurrent Blk.demoBaseline).is_dirty = true ↔
        0 < (Blk.engine_check_changes Blk.demoCurrent Blk.demoBaseline).new_files
          + (Blk.engine_check_changes Blk.demoCurrent Blk.demoBaseline).modified_files
          + (Blk.engine_check_changes Blk.demoCurrent Blk.demoBaseline).deleted_files) :=
  c5_diff_counts Blk.demoCurrent Blk.demoBaseline (by decide)

/-- Claim C6: during a scan, a scanned file that passes the filters
ends up in the result map under its key, and its hash is the prior
baseline's hash verbatim when the prior holds the same key with equal
size and equal modified time, and the fresh hash of the file contents
in every other case (no prior baseline, no prior entry, or differing
size or mtime).  Keys are assumed pairwise distinct, as HashMap
iteration of distinct scopes and WalkDir of disjoint trees yields. -/
theorem c6_scan_hash_reuse (exe : Option Blk.FsPath) (hashF : String → String)
    (excl : Blk.FsPath → Bool) (walks : List Blk.ScanWalk) (prior : Option Blk.StateMap)
    (hnd : (Blk.keysOf (Blk.scanPairs exe hashF excl walks prior)).Nodup)
    (w : Blk.ScanWalk) (hw : w ∈ walks) (f : Blk.ScanFile) (hf : f ∈ w.2.2)
    (hpass : Blk.passesFilters exe excl f = true) :
    (Blk.scan_state exe hashF excl walks prior).lookup (Blk.scanKey w.1 w.2.1 f.path)
      = some ⟨Blk.reuseRuleHash hashF prior (Blk.scanKey w.1 w.2.1 f.path)
                f.size f.modified f.contents,
              f.size, f.modified⟩ := by
  have hmem : (Blk.scanKey w.1 w.2.1 f.path,
      (⟨Blk.scanHash hashF prior (Blk.scanKey w.1 w.2.1 f.path) f.size f.modified f.contents,
        f.size, f.modified⟩ : Blk.FileEntry)) ∈ Blk.scanPairs exe hashF excl walks prior := by
    unfold Blk.scanPairs
    rw [List.mem_flatMap]
    refine ⟨w, hw, ?_⟩
    rw [List.mem_map]
    exact ⟨f, List.mem_filter.mpr ⟨hf, hpass⟩, rfl⟩
  rw [Blk.scan_state_eq, Blk.insFold_lookup hnd,
    Blk.lookup_of_mem_nodup hnd hmem, Blk.scanHash_eq_reuseRuleHash]

/-- Witness for C6: one scope, one file, a prior baseline with equal
size and mtime at the same key; the prior hash is reused. -/
theorem c6_scan_hash_reuse_witness :
    (Blk.scan_state none Blk.demoHashF Blk.noExcl Blk.demoWalks (some Blk.demoPrior)).lookup
        (Blk.scanKey "Root" ["r"] Blk.demoScanFile.path)
      = some ⟨Blk.reuseRuleHash Blk.demoHashF (some Blk.demoPrior)
                (Blk.scanKey "Root" ["r"] Blk.demoScanFile.path)
                Blk.demoScanFile.size Blk.demoScanFile.modified Blk.demoScanFile.contents,
              Blk.demoScanFile.size, Blk.demoScanFile.modified⟩ :=
  c6_scan_hash_reuse none Blk.demoHashF Blk.noExcl Blk.demoWalks (some Blk.demoPrior)
    (by decide) ("Root", ["r"], [Blk.demoScanFile]) (by decide) Blk.demoScanFile (by decide)
    (by decide)

/-- Claim C7 counterexample: with two layers whose first archive
exists but fails to extract, the percent sequence is
[0, 0, 10, 10, 100, 50, 95, 99, 100]: it is not monotone (100 is
followed by 50) and an event with percent 100.0 occurs before the
terminal event. -/
theorem c7_counterexample :
    ¬ List.Pairwise (· ≤ ·) (Blk.restoreTracePercents 1 Blk.badLayers)
    ∧ ¬ (∀ x ∈ (Blk.restoreTracePercents 1 Blk.badLayers).dropLast, x ≠ 100) := by
  have htr : Blk.restoreTracePercents 1 Blk.badLayers
      = [0, 0, 10, 10, 100, 50, 95, 99, 100] := by
    norm_num [Blk.restoreTracePercents, Blk.layerTrace, Blk.layerPercent, Blk.badLayers,
      List.replicate]
  rw [htr]
  refine ⟨?_, ?_⟩
  · decide
  · decide

/-- Claim C7 amended: in every restore in which each existing layer
archive extracts successfully, the percent sequence on the progress
channel is monotone non-decreasing and percent 100.0 is sent only as
the terminal event.  When the extraction of an existing archive fails
the engine sends a 100.0 diagnostic and continues, breaking both
properties (see the counterexample). -/
theorem c7_progress_amended (scopeCount : Nat) (layers : List Blk.LayerOutcome)
    (hok : ∀ L ∈ layers, L.archiveExists = true → L.extractOk = true) :
    List.Pairwise (· ≤ ·) (Blk.restoreTracePercents scopeCount layers)
    ∧ ∀ x ∈ (Blk.restoreTracePercents scopeCount layers).dropLast, x ≠ 100 := by
  have hB : ∀ x ∈ Blk.layerTrace layers.length 0 layers, 10 ≤ x ∧ x ≤ 90 := by
    intro x hx
    obtain ⟨i, _, hi2, hx3⟩ := Blk.layerTrace_mem layers.length hok 0 x hx
    subst hx3
    exact ⟨Blk.layerPercent_lb i layers.length, Blk.layerPercent_ub (by omega)⟩
  have htail : ∀ y ∈ Blk.layerTrace layers.length 0 layers ++ [(95 : Rat), 99, 100],
      10 ≤ y := by
    intro y hy
    rcases List.mem_append.mp hy with hyB | hyC
    · exact (hB y hyB).1
    · simp only [List.mem_cons, List.not_mem_nil, or_false] at hyC
      rcases hyC with rfl | rfl | rfl <;> norm_num
  constructor
  · rw [Blk.restoreTracePercents]
    refine List.pairwise_cons.mpr ⟨?_, ?_⟩
    · intro y hy
      rcases List.mem_append.mp hy with hyR | hyT
      · rw [List.eq_of_mem_replicate hyR]
      · rcases List.mem_cons.mp hyT with rfl | hyT2
        · norm_num
        · exact le_trans (by norm_num) (htail y hyT2)
    · refine List.pairwise_append.mpr
        ⟨Blk.pairwise_le_replicate_zero scopeCount, ?_, ?_⟩
      · refine List.pairwise_cons.mpr ⟨htail, ?_⟩
        refine List.pairwise_append.mpr
          ⟨Blk.layerTrace_pairwise layers.length hok 0, by decide, ?_⟩
        intro a ha b hb
        have ha90 := (hB a ha).2
        simp only [List.mem_cons, List.not_mem_nil, or_false] at hb
        rcases hb with rfl | rfl | rfl <;> nlinarith [ha90]
      · intro a ha b hb
        rw [List.eq_of_mem_replicate ha]
        rcases List.mem_cons.mp hb with rfl | hb2
        · norm_num
        · exact le_trans (by norm_num) (htail b hb2)
  · have hsplit : Blk.restoreTracePercents scopeCount layers
        = (0 :: (List.replicate scopeCount 0
            ++ 10 :: (Blk.layerTrace layers.length 0 layers ++ [95, 99]))) ++ [100] := by
      simp [Blk.restoreTracePercents, List.cons_append, List.append_assoc]
    rw [hsplit, List.dropLast_concat]
    intro y hy
    rcases List.mem_cons.mp hy with rfl | hy1
    · norm_num
    · rcases List.mem_append.mp hy1 with hyR | hyT
      · rw [List.eq_of_mem_replicate hyR]; norm_num
      · rcases List.mem_cons.mp hyT with rfl | hyT2
        · norm_num
        · rcases List.mem_append.mp hyT2 with hyB | hyC
          · have := (hB y hyB).2
            intro heq
            rw [heq] at this
            norm_num at this
          · simp only [List.mem_cons, List.not_mem_nil, or_false] at hyC
            rcases hyC with rfl | rfl <;> norm_num

/-- Witness for the amended C7: a concrete error-free two-layer
restore over one scope. -/
theorem c7_progress_amended_witness :
    List.Pairwise (· ≤ ·)
      (Blk.restoreTracePercents 1 [⟨"vanilla", true, true⟩, ⟨"edit1", true, true⟩])
    ∧ ∀ x ∈ (Blk.restoreTracePercents 1
        [⟨"vanilla", true, true⟩, ⟨"edit1", true, true⟩]).dropLast, x ≠ 100 :=
  c7_progress_amended 1 [⟨"vanilla", true, true⟩, ⟨"edit1", true, true⟩] (by decide)

namespace Blk

theorem hexEncode_length (bs : List (Fin 256)) :
    (hexEncode bs).length = 2 * bs.length := by
  show (bs.flatMap hexByte).length = 2 * bs.length
  induction bs with
  | nil => rfl
  | cons b rest ih =>
    rw [List.flatMap_cons, List.length_append, ih, List.length_cons]
    show 2 + 2 * rest.length = 2 * (rest.length + 1)
    omega

theorem hexDigit_mem {n : Nat} (h : n < 16) : hexDigit n ∈ hexChars := by
  interval_cases n <;> decide

theorem hexByte_mem (b : Fin 256) : ∀ c ∈ hexByte b, c ∈ hexChars := by
  intro c hc
  have hb := b.isLt
  rcases List.mem_cons.mp hc with rfl | hc2
  · exact hexDigit_mem (by omega)
  · rcases List.mem_cons.mp hc2 with rfl | hc3
    · exact hexDigit_mem (by omega)
    · cases hc3

end Blk

/-- Claim C8 / code bug: extract_zip_archive calls fs::set_permissions
with the entry's stored mode BEFORE File::create, so on a fresh
destination the chmod hits a nonexistent path, its error is discarded,
and the extracted file keeps the default creation mode: the stored
permission bits are not applied, although the contents are written. -/
theorem c8_stored_permissions_not_applied :
    (Blk.extract_entry 0o644 0o700 "x" ⟨false, 0, ""⟩).mode = 0o644
    ∧ (Blk.extract_entry 0o644 0o700 "x" ⟨false, 0, ""⟩).mode ≠ 0o700
    ∧ (Blk.extract_entry 0o644 0o700 "x" ⟨false, 0, ""⟩).data = "x" := by
  decide

/-- Claim C9 counterexample: hash_file returns the empty string also
when the file opened but the streamed read failed, so emptiness does
not imply the file could not be opened. -/
theorem c9_counterexample :
    Blk.hash_file Blk.demoDigest Blk.FileRead.readFails = ""
    ∧ Blk.FileRead.readFails ≠ Blk.FileRead.cantOpen :=
  ⟨rfl, by decide⟩

/-- Claim C9 amended: the hash field is the 64-character lowercase
hexadecimal encoding of the 32-byte SHA-256 digest of the contents
whenever the file was opened and fully read, and it is the empty
string exactly when the file could not be opened or reading it
failed. -/
theorem c9_hash_characterization (digest : List (Fin 256) → Blk.Digest)
    (f : Blk.FileRead) :
    (Blk.hash_file digest f = ""
      ↔ f = Blk.FileRead.cantOpen ∨ f = Blk.FileRead.readFails)
    ∧ (∀ bs, f = Blk.FileRead.ok bs →
        (Blk.hash_file digest f).length = 64
        ∧ ∀ c ∈ (Blk.hash_file digest f).data, c ∈ Blk.hexChars) := by
  cases f with
  | cantOpen => exact ⟨by simp [Blk.hash_file], by intro bs h; cases h⟩
  | readFails => exact ⟨by simp [Blk.hash_file], by intro bs h; cases h⟩
  | ok contents =>
    have hlen : (Blk.hash_file digest (Blk.FileRead.ok contents)).length = 64 := by
      show (Blk.hexEncode (digest contents).val).length = 64
      rw [Blk.hexEncode_length, (digest contents).prop]
    constructor
    · constructor
      · intro hempty
        exfalso
        have h0 : (Blk.hash_file digest (Blk.FileRead.ok contents)).length = 0 := by
          rw [hempty]
          rfl
        rw [hlen] at h0
        cases h0
      · intro hcase
        rcases hcase with h | h <;> cases h
    · intro bs hbs
      refine ⟨hlen, ?_⟩
      intro c hc
      show c ∈ Blk.hexChars
      have : c ∈ (digest contents).val.flatMap Blk.hexByte := hc
      obtain ⟨b, _, hcb⟩ := List.mem_flatMap.mp this
      exact Blk.hexByte_mem b c hcb

/-- Witness for the amended C9: a one-byte file hashes to a 64-hex
string. -/
theorem c9_hash_characterization_witness :
    (Blk.hash_file Blk.demoDigest (Blk.FileRead.ok [0])).length = 64 :=
  ((c9_hash_characterization Blk.demoDigest (Blk.FileRead.ok [0])).2 [0] rfl).1

/-- Claim C10: when <root>/.blk already exists, engine_auto_init
leaves the filesystem exactly as it was (config, sets, snapshots and
baseline untouched) and its progress trace is the 10.0 banner followed
by the terminal 100.0 "Already initialized." event. -/
theorem c10_init_noop_when_initialized (fs : Blk.InitFS)
    (h : [".blk"] ∈ fs.dirs) :
    (Blk.engine_auto_init fs).1 = fs
    ∧ (Blk.engine_auto_init fs).2
        = [(10, "Creating .blk structure (v3.0 Nuke)..."), (100, "Already initialized.")] := by
  unfold Blk.engine_auto_init
  rw [if_pos h]
  exact ⟨rfl, rfl⟩

/-- Witness for C10 on a concrete already-initialized root. -/
theorem c10_init_noop_when_initialized_witness :
    (Blk.engine_auto_init ⟨[[".blk"]], [([".blk", "config.json"], "cfg")]⟩).1
        = (⟨[[".blk"]], [([".blk", "config.json"], "cfg")]⟩ : Blk.InitFS)
    ∧ (Blk.engine_auto_init ⟨[[".blk"]], [([".blk", "config.json"], "cfg")]⟩).2
        = [(10, "Creating .blk structure (v3.0 Nuke)..."), (100, "Already initialized.")] :=
  c10_init_noop_when_initialized ⟨[[".blk"]], [([".blk", "config.json"], "cfg")]⟩
    (by decide)
